import Mathlib

/-!
Shallow embedding of `src/uc2/utils/binutils.py` (binary codec primitives,
RIFF chunk sizing, and the DIB/BMP bitmap transcoder), together with proofs
about the embedded functions.

Bytes are modelled as `List Nat`; every decoder mirrors the corresponding
`struct.unpack` call (a slice of the wrong length is an error), every encoder
mirrors `struct.pack` (an out-of-range value is an error).  Python slices
clamp at the end of the buffer, which `pySlice` reproduces.

The source computes `offset += math.pow(2, bitsperpixel) * 3` and
`math.ceil(offset / 4.0)` in IEEE-754 binary64 arithmetic.  The embedding
represents every float by its exact rational value and models each float
operation by the correctly rounded result: `fl` rounds a rational to 53
significant bits, round-to-nearest ties-to-even, with the subnormal quantum
floored at `2 ^ (-1074)` (overflow cannot occur at any call site, where all
values stay far below `2 ^ 1024`).  `math.pow(2, e)`, only ever called here
with `e ≤ 8`, returns exactly `2 ^ e` down to the smallest subnormal and
underflows to `0.0` below it, which `pow2f` reproduces.  Integer operands of
the float operations (the header size, below `2 ^ 32`, and integer offsets,
below `2 ^ 34`) convert to binary64 exactly, so `fl` applied to the exact
quotient or sum is the value CPython computes.
-/

set_option maxRecDepth 100000

/-- Errors raised by the embedded functions, following the taxonomy of the
design document: a decode slice of the wrong width, an encode value outside
the representable range, and a malformed DIB header. -/
inductive BinErr where
  | invalidLength
  | valueOutOfRange
  | malformedHeader
deriving DecidableEq, Repr

/-- Python slice `l[a:b]` for nonnegative bounds: clamps at the end of the
list, never reads out of bounds. -/
def pySlice (l : List Nat) (a b : Nat) : List Nat :=
  (l.take b).drop a

/-- Source `byte2py_int`: `struct.unpack('B', data)[0]`. -/
def byte2py_int (data : List Nat) : Except BinErr Nat :=
  match data with
  | [b0] => .ok b0
  | _ => .error .invalidLength

/-- Source `py_int2byte`: `struct.pack('B', val)`. -/
def py_int2byte (val : Int) : Except BinErr (List Nat) :=
  if 0 ≤ val ∧ val < 256 then .ok [val.toNat] else .error .valueOutOfRange

/-- Source `word2py_int`: `struct.unpack('>H' if be else '<H', data)[0]`. -/
def word2py_int (data : List Nat) (be : Bool) : Except BinErr Nat :=
  match (if be then data.reverse else data) with
  | [b0, b1] => .ok (b0 + 256 * b1)
  | _ => .error .invalidLength

/-- Source `signed_word2py_int`: `struct.unpack('>h' if be else '<h', data)[0]`. -/
def signed_word2py_int (data : List Nat) (be : Bool) : Except BinErr Int :=
  match (if be then data.reverse else data) with
  | [b0, b1] =>
      let u := b0 + 256 * b1
      .ok (if u < 32768 then (u : Int) else (u : Int) - 65536)
  | _ => .error .invalidLength

/-- Source `py_int2word`: `struct.pack('>H' if be else '<H', val)`. -/
def py_int2word (val : Int) (be : Bool) : Except BinErr (List Nat) :=
  if 0 ≤ val ∧ val < 65536 then
    let n := val.toNat
    let le := [n % 256, n / 256]
    .ok (if be then le.reverse else le)
  else .error .valueOutOfRange

/-- Source `py_int2signed_word`: `struct.pack('>h' if be else '<h', val)`. -/
def py_int2signed_word (val : Int) (be : Bool) : Except BinErr (List Nat) :=
  if -32768 ≤ val ∧ val < 32768 then
    let n := (val % 65536).toNat
    let le := [n % 256, n / 256]
    .ok (if be then le.reverse else le)
  else .error .valueOutOfRange

/-- Source `dword2py_int`: `struct.unpack('>I' if be else '<I', data)[0]`. -/
def dword2py_int (data : List Nat) (be : Bool) : Except BinErr Nat :=
  match (if be then data.reverse else data) with
  | [b0, b1, b2, b3] => .ok (b0 + 256 * b1 + 65536 * b2 + 16777216 * b3)
  | _ => .error .invalidLength

/-- Source `signed_dword2py_int`: `struct.unpack('>i' if be else '<i', data)[0]`. -/
def signed_dword2py_int (data : List Nat) (be : Bool) : Except BinErr Int :=
  match (if be then data.reverse else data) with
  | [b0, b1, b2, b3] =>
      let u := b0 + 256 * b1 + 65536 * b2 + 16777216 * b3
      .ok (if u < 2147483648 then (u : Int) else (u : Int) - 4294967296)
  | _ => .error .invalidLength

/-- Source `py_int2dword`: `struct.pack('>I' if be else '<I', val)`. -/
def py_int2dword (val : Int) (be : Bool) : Except BinErr (List Nat) :=
  if 0 ≤ val ∧ val < 4294967296 then
    let n := val.toNat
    let le := [n % 256, n / 256 % 256, n / 65536 % 256, n / 16777216]
    .ok (if be then le.reverse else le)
  else .error .valueOutOfRange

/-- Source `py_int2signed_dword`: `struct.pack('>i' if be else '<i', val)`. -/
def py_int2signed_dword (val : Int) (be : Bool) : Except BinErr (List Nat) :=
  if -2147483648 ≤ val ∧ val < 2147483648 then
    let n := (val % 4294967296).toNat
    let le := [n % 256, n / 256 % 256, n / 65536 % 256, n / 16777216]
    .ok (if be then le.reverse else le)
  else .error .valueOutOfRange

/-- Source `get_chunk_size`: little-endian dword decode followed by the RIFF
even-padding rule. -/
def get_chunk_size (size_field : List Nat) : Except BinErr Nat :=
  (dword2py_int size_field false).bind fun size =>
    .ok (if size % 2 = 0 then size else size + 1)

/-- Structural base-2 logarithm with explicit fuel, so that it reduces in
the kernel. -/
def log2Aux : Nat → Nat → Nat
  | 0, _ => 0
  | fuel + 1, n => if n < 2 then 0 else log2Aux fuel (n / 2) + 1

/-- Floor of the base-2 logarithm of a natural number (0 for 0). -/
def nlog2 (n : Nat) : Nat := log2Aux n n

/-- Round a rational to the nearest integer, ties to even: the IEEE-754
round-to-nearest-even rule applied to an exact scaled significand. -/
def roundEven (y : ℚ) : Int :=
  if y - (⌊y⌋ : ℚ) < 1/2 then ⌊y⌋
  else if 1/2 < y - (⌊y⌋ : ℚ) then ⌊y⌋ + 1
  else if ⌊y⌋ % 2 = 0 then ⌊y⌋ else ⌊y⌋ + 1

/-- Floor of the base-2 logarithm of a positive rational. -/
def qexp (a : ℚ) : Int :=
  if a < 2 ^ ((nlog2 a.num.toNat : Int) - (nlog2 a.den : Int)) then
    (nlog2 a.num.toNat : Int) - (nlog2 a.den : Int) - 1
  else if a < 2 ^ ((nlog2 a.num.toNat : Int) - (nlog2 a.den : Int) + 1) then
    (nlog2 a.num.toNat : Int) - (nlog2 a.den : Int)
  else
    (nlog2 a.num.toNat : Int) - (nlog2 a.den : Int) + 1

/-- The exact value of the IEEE-754 binary64 nearest to `x`: 53 significant
bits, round-to-nearest ties-to-even, quantum floored at `2 ^ (-1074)`
(subnormal range).  Every float operation of the source is modelled as the
correctly rounded exact result, that is, `fl` of the exact rational value;
no call site can overflow. -/
def fl (x : ℚ) : ℚ :=
  if x = 0 then 0
  else (roundEven (x / 2 ^ max (qexp |x| - 52) (-1074)) : ℚ) *
    2 ^ max (qexp |x| - 52) (-1074)

/-- The binary64 result of `math.pow(2, e)` for the exponents `e ≤ 8` this
module can produce: exactly `2 ^ e` down to the smallest subnormal
`2 ^ (-1074)`, and an underflow to `0.0` below it. -/
def pow2f (e : Int) : ℚ :=
  if e < -1074 then 0 else 2 ^ e

/-- Lines 237 to 248 of the source function `dib_to_bmp`: read the header
size and add the palette bytes dictated by the layout the header size
selects.  The result is the value of the Python variable `offset` just
before the 4-byte rounding: an exact integer when no palette term is added
(`bitsperpixel > 8`, where `colorsnum * 3` is Python int arithmetic), and
otherwise the binary64 sum `fl (hs + fl (pow2f bpp * 3))` produced by
`offset += math.pow(2, bitsperpixel) * 3` (the header size, below `2 ^ 32`,
converts to binary64 exactly). -/
def dib_offset (dib : List Nat) : Except BinErr ℚ :=
  (dword2py_int (pySlice dib 0 4) false).bind fun hs =>
    if hs = 12 then
      (signed_word2py_int (pySlice dib 10 12) false).bind fun bpp =>
        .ok (if bpp > 8 then (hs : ℚ)
             else fl ((hs : ℚ) + fl (pow2f bpp * 3)))
    else
      (signed_word2py_int (pySlice dib 14 16) false).bind fun bpp =>
        (dword2py_int (pySlice dib 32 36) false).bind fun colorsnum =>
          .ok (if bpp > 8 then (hs : ℚ) + (colorsnum : ℚ) * 3
               else fl ((hs : ℚ) + fl (pow2f bpp * 3)))

/-- Source `dib_to_bmp`: reconstructs the 14-byte BMP file header in front of
a DIB payload.  `math.ceil(offset / 4.0) * 4` becomes `⌈fl (offset / 4)⌉ * 4`:
the offset is either a Python int below `2 ^ 34` (converted to binary64
exactly) or already a binary64 value, and float division is correctly
rounded, so the quotient `math.ceil` sees is `fl` of the exact quotient. -/
def dib_to_bmp (dib : List Nat) : Except BinErr (List Nat) :=
  (dib_offset dib).bind fun offset =>
    (py_int2dword (14 + ⌈fl (offset / 4)⌉ * 4) false).bind fun pixel_offset =>
      (py_int2dword (14 + (dib.length : Int)) false).bind fun file_size =>
        .ok ([66, 77] ++ file_size ++ [0, 0, 0, 0] ++ pixel_offset ++ dib)

/-- Source `bmp_to_dib`: `return bmp[14:]`, unconditionally. -/
def bmp_to_dib (bmp : List Nat) : List Nat :=
  bmp.drop 14

/-- Inversion for a successful `Except.bind`. -/
lemma except_bind_ok {α β : Type} {x : Except BinErr α} {f : α → Except BinErr β}
    {b : β} (h : x.bind f = .ok b) : ∃ a, x = .ok a ∧ f a = .ok b := by
  cases x with
  | error e => simp [Except.bind] at h
  | ok a => exact ⟨a, rfl, h⟩

/-- A successful little-endian dword decode forces a 4-byte input and fixes
the decoded value. -/
lemma dword2py_int_le_shape {b : List Nat} {raw : Nat}
    (hb : dword2py_int b false = .ok raw) :
    ∃ b0 b1 b2 b3, b = [b0, b1, b2, b3] ∧
      raw = b0 + 256 * b1 + 65536 * b2 + 16777216 * b3 := by
  rcases b with _ | ⟨b0, _ | ⟨b1, _ | ⟨b2, _ | ⟨b3, _ | ⟨b4, t⟩⟩⟩⟩⟩ <;>
    simp [dword2py_int] at hb
  exact ⟨b0, b1, b2, b3, rfl, hb.symm⟩

/-- A successful dword encode forces the value into the unsigned 32-bit range
and fixes the emitted bytes. -/
lemma py_int2dword_ok {v : Int} {be : Bool} {bs : List Nat}
    (h : py_int2dword v be = .ok bs) :
    0 ≤ v ∧ v < 4294967296 ∧
      bs = (if be then
              [v.toNat % 256, v.toNat / 256 % 256, v.toNat / 65536 % 256,
                v.toNat / 16777216].reverse
            else
              [v.toNat % 256, v.toNat / 256 % 256, v.toNat / 65536 % 256,
                v.toNat / 16777216]) := by
  by_cases hc : 0 ≤ v ∧ v < 4294967296
  · refine ⟨hc.1, hc.2, ?_⟩
    simp only [py_int2dword, if_pos hc, Except.ok.injEq] at h
    exact h.symm
  · simp [py_int2dword, hc] at h

/-- Decoding the bytes of a successful dword encode recovers the value. -/
lemma dword2py_int_pack {v : Int} {be : Bool} {bs : List Nat}
    (h : py_int2dword v be = .ok bs) :
    dword2py_int bs be = .ok v.toNat := by
  obtain ⟨h0, h1, rfl⟩ := py_int2dword_ok h
  cases be <;> simp [dword2py_int] <;> omega

/-- A successful dword encode emits exactly 4 bytes. -/
lemma py_int2dword_length {v : Int} {be : Bool} {bs : List Nat}
    (h : py_int2dword v be = .ok bs) : bs.length = 4 := by
  obtain ⟨-, -, rfl⟩ := py_int2dword_ok h
  cases be <;> simp

/-- With enough fuel, `log2Aux` brackets its argument between consecutive
powers of two. -/
lemma log2Aux_spec : ∀ fuel n, 1 ≤ n → n ≤ fuel →
    2 ^ log2Aux fuel n ≤ n ∧ n < 2 ^ (log2Aux fuel n + 1) := by
  intro fuel
  induction fuel with
  | zero => intro n h1 h2; omega
  | succ f ih =>
      intro n h1 h2
      by_cases hn : n < 2
      · simp only [log2Aux, if_pos hn]
        constructor
        · simpa using h1
        · simpa using hn
      · have h12 : 1 ≤ n / 2 := by omega
        have h2f : n / 2 ≤ f := by omega
        obtain ⟨ha, hb⟩ := ih (n / 2) h12 h2f
        simp only [log2Aux, if_neg hn]
        have hp1 : 2 ^ (log2Aux f (n / 2) + 1) = 2 ^ log2Aux f (n / 2) * 2 :=
          pow_succ 2 _
        have hp2 : 2 ^ (log2Aux f (n / 2) + 1 + 1) =
            2 ^ (log2Aux f (n / 2) + 1) * 2 := pow_succ 2 _
        constructor
        · rw [hp1]
          omega
        · rw [hp1] at hb
          rw [hp2, hp1]
          omega

/-- `nlog2` brackets a positive natural between consecutive powers of two. -/
lemma nlog2_spec {n : Nat} (h : 1 ≤ n) :
    2 ^ nlog2 n ≤ n ∧ n < 2 ^ (nlog2 n + 1) :=
  log2Aux_spec n n h (le_refl n)

/-- Rounding an integer changes nothing. -/
lemma roundEven_intCast (z : Int) : roundEven (z : ℚ) = z := by
  simp only [roundEven, Int.floor_intCast, sub_self]
  norm_num

/-- Round-to-nearest-even of a nonnegative value is nonnegative. -/
lemma roundEven_nonneg {y : ℚ} (h : 0 ≤ y) : 0 ≤ roundEven y := by
  have hf : 0 ≤ ⌊y⌋ := Int.floor_nonneg.mpr h
  unfold roundEven
  split
  · exact hf
  · split
    · omega
    · split <;> omega

/-- Double rounding of a nonnegative value is nonnegative. -/
lemma fl_nonneg {x : ℚ} (h : 0 ≤ x) : 0 ≤ fl x := by
  unfold fl
  split
  · exact le_refl 0
  · have hq : (0 : ℚ) < 2 ^ max (qexp |x| - 52) (-1074) := by positivity
    have hr : 0 ≤ roundEven (x / 2 ^ max (qexp |x| - 52) (-1074)) :=
      roundEven_nonneg (div_nonneg h (le_of_lt hq))
    have hr2 : (0 : ℚ) ≤
        (roundEven (x / 2 ^ max (qexp |x| - 52) (-1074)) : ℚ) := by
      exact_mod_cast hr
    exact mul_nonneg hr2 (le_of_lt hq)

/-- `qexp` of a positive natural is its floor base-2 logarithm. -/
lemma qexp_natCast {n : Nat} (h : 1 ≤ n) : qexp (n : ℚ) = (nlog2 n : Int) := by
  obtain ⟨h1, h2⟩ := nlog2_spec h
  have hnum : ((n : ℚ)).num.toNat = n := by
    rw [Rat.num_natCast]
    omega
  have hden : ((n : ℚ)).den = 1 := Rat.den_natCast n
  have hz1 : ((2 : ℚ)) ^ ((nlog2 n : Int)) = ((2 ^ nlog2 n : ℕ) : ℚ) := by
    rw [zpow_natCast]
    push_cast
    ring
  have hz2 : ((2 : ℚ)) ^ ((nlog2 n : Int) + 1) =
      ((2 ^ (nlog2 n + 1) : ℕ) : ℚ) := by
    rw [show (nlog2 n : Int) + 1 = ((nlog2 n + 1 : ℕ) : Int) by push_cast; ring,
      zpow_natCast]
    push_cast
    ring
  have hA : ¬ ((n : ℚ) < 2 ^ ((nlog2 n : Int))) := by
    rw [hz1]
    exact not_lt.mpr (by exact_mod_cast h1)
  have hB : (n : ℚ) < 2 ^ ((nlog2 n : Int) + 1) := by
    rw [hz2]
    exact_mod_cast h2
  unfold qexp
  rw [hnum, hden]
  rw [show nlog2 1 = 0 from rfl]
  simp only [Nat.cast_zero, sub_zero]
  rw [if_neg hA, if_pos hB]

/-- `fl` is the identity on naturals below `2 ^ 53`: such integers are
exactly representable in binary64. -/
lemma fl_natCast {n : Nat} (h : n < 2 ^ 53) : fl (n : ℚ) = n := by
  rcases Nat.eq_zero_or_pos n with rfl | hpos
  · simp [fl]
  · have hne : ((n : ℚ)) ≠ 0 := by positivity
    have habs : |(n : ℚ)| = (n : ℚ) := abs_of_nonneg (by positivity)
    have hq : qexp |(n : ℚ)| = (nlog2 n : Int) := by
      rw [habs]
      exact qexp_natCast hpos
    have hk52 : nlog2 n ≤ 52 := by
      obtain ⟨h1, -⟩ := nlog2_spec hpos
      by_contra hgt
      push_neg at hgt
      have hh : 2 ^ 53 ≤ 2 ^ nlog2 n := Nat.pow_le_pow_right (by omega) hgt
      omega
    have hmax : max (qexp |(n : ℚ)| - 52) (-1074) = (nlog2 n : Int) - 52 := by
      rw [hq]
      omega
    have hqt : (nlog2 n : Int) - 52 = -((52 - nlog2 n : ℕ) : Int) := by omega
    have hdiv : (n : ℚ) / 2 ^ ((nlog2 n : Int) - 52) =
        ((n * 2 ^ (52 - nlog2 n) : ℕ) : ℚ) := by
      rw [hqt, zpow_neg, div_eq_mul_inv, inv_inv, zpow_natCast]
      push_cast
      ring
    unfold fl
    rw [if_neg hne, hmax, hdiv]
    rw [show ((n * 2 ^ (52 - nlog2 n) : ℕ) : ℚ) =
        (((n * 2 ^ (52 - nlog2 n) : ℕ) : Int) : ℚ) by push_cast; ring]
    rw [roundEven_intCast, hqt, zpow_neg, zpow_natCast]
    push_cast
    have hpow_ne : ((2 : ℚ)) ^ ((52 - nlog2 n : ℕ)) ≠ 0 := by positivity
    field_simp

/-- On the nonnegative exponents the claims single out, the float palette
arithmetic is exact: the double-rounded sum equals the ideal
`header_size + 2 ^ bpp * 3`. -/
lemma fl_palette_exact {hs : Nat} (h32 : hs < 4294967296) {bpp : Int}
    (h0 : 0 ≤ bpp) (h8 : bpp ≤ 8) :
    fl ((hs : ℚ) + fl (pow2f bpp * 3)) = (hs : ℚ) + 2 ^ bpp * 3 := by
  have hp : pow2f bpp = 2 ^ bpp := if_neg (by omega)
  have hbt : bpp = ((bpp.toNat : ℕ) : Int) := by omega
  have htle : bpp.toNat ≤ 8 := by omega
  have hple : 2 ^ bpp.toNat ≤ 2 ^ 8 := Nat.pow_le_pow_right (by omega) htle
  have hpow : ((2 : ℚ)) ^ bpp * 3 = ((3 * 2 ^ bpp.toNat : ℕ) : ℚ) := by
    conv_lhs => rw [hbt, zpow_natCast]
    push_cast
    ring
  have h1 : fl ((2 : ℚ) ^ bpp * 3) = (2 : ℚ) ^ bpp * 3 := by
    rw [hpow, fl_natCast (by omega)]
  have hsum : ((hs : ℚ)) + (2 : ℚ) ^ bpp * 3 =
      ((hs + 3 * 2 ^ bpp.toNat : ℕ) : ℚ) := by
    rw [hpow]
    push_cast
    ring
  rw [hp, h1, hsum, fl_natCast (by omega)]

/-- C9: for every integer within the range of the target width and
signedness (8-bit unsigned; 16-bit signed or unsigned; 32-bit signed or
unsigned) and both endianness settings, decoding the encoding returns the
original value: each encode/decode pair of the primitive codec is an exact
inverse. -/
theorem codec_roundtrip (n : Nat) (v : Int) (be : Bool) :
    (n < 256 →
      ∃ bs, py_int2byte (n : Int) = .ok bs ∧ byte2py_int bs = .ok n) ∧
    (n < 65536 →
      ∃ bs, py_int2word (n : Int) be = .ok bs ∧ word2py_int bs be = .ok n) ∧
    (-32768 ≤ v → v < 32768 →
      ∃ bs, py_int2signed_word v be = .ok bs ∧
        signed_word2py_int bs be = .ok v) ∧
    (n < 4294967296 →
      ∃ bs, py_int2dword (n : Int) be = .ok bs ∧ dword2py_int bs be = .ok n) ∧
    (-2147483648 ≤ v → v < 2147483648 →
      ∃ bs, py_int2signed_dword v be = .ok bs ∧
        signed_dword2py_int bs be = .ok v) := by
  refine ⟨fun h => ?_, fun h => ?_, fun h1 h2 => ?_, fun h => ?_,
    fun h1 h2 => ?_⟩
  · have hc : (0 : Int) ≤ (n : Int) ∧ (n : Int) < 256 := by omega
    have he : py_int2byte (n : Int) = .ok [(n : Int).toNat] := by
      simp only [py_int2byte, if_pos hc]
    refine ⟨_, he, ?_⟩
    simp only [byte2py_int, Except.ok.injEq]
    omega
  · have hc : (0 : Int) ≤ (n : Int) ∧ (n : Int) < 65536 := by omega
    have he : py_int2word (n : Int) be = .ok
        (if be then [(n : Int).toNat % 256, (n : Int).toNat / 256].reverse
         else [(n : Int).toNat % 256, (n : Int).toNat / 256]) := by
      simp only [py_int2word, if_pos hc]
    refine ⟨_, he, ?_⟩
    cases be <;> simp [word2py_int] <;> omega
  · have hc : (-32768 : Int) ≤ v ∧ v < 32768 := ⟨h1, h2⟩
    have he : py_int2signed_word v be = .ok
        (if be then [(v % 65536).toNat % 256, (v % 65536).toNat / 256].reverse
         else [(v % 65536).toNat % 256, (v % 65536).toNat / 256]) := by
      simp only [py_int2signed_word, if_pos hc]
    refine ⟨_, he, ?_⟩
    cases be <;> simp [signed_word2py_int] <;> split <;> omega
  · have hc : (0 : Int) ≤ (n : Int) ∧ (n : Int) < 4294967296 := by omega
    have he : py_int2dword (n : Int) be = .ok
        (if be then [(n : Int).toNat % 256, (n : Int).toNat / 256 % 256,
            (n : Int).toNat / 65536 % 256, (n : Int).toNat / 16777216].reverse
         else [(n : Int).toNat % 256, (n : Int).toNat / 256 % 256,
            (n : Int).toNat / 65536 % 256, (n : Int).toNat / 16777216]) := by
      simp only [py_int2dword, if_pos hc]
    refine ⟨_, he, ?_⟩
    cases be <;> simp [dword2py_int] <;> omega
  · have hc : (-2147483648 : Int) ≤ v ∧ v < 2147483648 := ⟨h1, h2⟩
    have he : py_int2signed_dword v be = .ok
        (if be then [(v % 4294967296).toNat % 256,
            (v % 4294967296).toNat / 256 % 256,
            (v % 4294967296).toNat / 65536 % 256,
            (v % 4294967296).toNat / 16777216].reverse
         else [(v % 4294967296).toNat % 256,
            (v % 4294967296).toNat / 256 % 256,
            (v % 4294967296).toNat / 65536 % 256,
            (v % 4294967296).toNat / 16777216]) := by
      simp only [py_int2signed_dword, if_pos hc]
    refine ⟨_, he, ?_⟩
    cases be <;> simp [signed_dword2py_int] <;> split <;> omega

/-- Witness for C9 at the inputs 5 and -5 with big-endian encoding. -/
theorem codec_roundtrip_witness :
    (∃ bs, py_int2byte ((5 : Nat) : Int) = .ok bs ∧ byte2py_int bs = .ok 5) ∧
    (∃ bs, py_int2word ((5 : Nat) : Int) true = .ok bs ∧
      word2py_int bs true = .ok 5) ∧
    (∃ bs, py_int2signed_word (-5) true = .ok bs ∧
      signed_word2py_int bs true = .ok (-5)) ∧
    (∃ bs, py_int2dword ((5 : Nat) : Int) true = .ok bs ∧
      dword2py_int bs true = .ok 5) ∧
    (∃ bs, py_int2signed_dword (-5) true = .ok bs ∧
      signed_dword2py_int bs true = .ok (-5)) :=
  ⟨(codec_roundtrip 5 (-5) true).1 (by omega),
   (codec_roundtrip 5 (-5) true).2.1 (by omega),
   (codec_roundtrip 5 (-5) true).2.2.1 (by omega) (by omega),
   (codec_roundtrip 5 (-5) true).2.2.2.1 (by omega),
   (codec_roundtrip 5 (-5) true).2.2.2.2 (by omega) (by omega)⟩

/-- C8: `get_chunk_size` decodes its 4-byte input as a little-endian unsigned
32-bit integer and applies the RIFF even-padding rule: an even raw size is
returned unchanged and an odd raw size is rounded up by one, that is, the
result is `2 * ((raw + 1) / 2)`, an even value at least the raw size. -/
theorem get_chunk_size_spec (b : List Nat) (raw : Nat)
    (hb : dword2py_int b false = .ok raw) :
    b.length = 4 ∧
    get_chunk_size b = .ok (2 * ((raw + 1) / 2)) ∧
    (2 * ((raw + 1) / 2)) % 2 = 0 ∧
    raw ≤ 2 * ((raw + 1) / 2) := by
  obtain ⟨b0, b1, b2, b3, rfl, -⟩ := dword2py_int_le_shape hb
  refine ⟨rfl, ?_, by omega, by omega⟩
  simp only [get_chunk_size, hb, Except.bind, Except.ok.injEq]
  split <;> omega

/-- Witness for C8 at the odd raw size 7. -/
theorem get_chunk_size_spec_witness :
    [7, 0, 0, 0].length = 4 ∧
    get_chunk_size [7, 0, 0, 0] = .ok (2 * ((7 + 1) / 2)) ∧
    (2 * ((7 + 1) / 2)) % 2 = 0 ∧
    7 ≤ 2 * ((7 + 1) / 2) :=
  get_chunk_size_spec [7, 0, 0, 0] 7 rfl

/-- Any successful run of `dib_to_bmp` decomposes into a successful offset
computation, two successful dword encodes, and the emitted concatenation. -/
lemma dib_to_bmp_ok_shape {dib b : List Nat} (h : dib_to_bmp dib = .ok b) :
    ∃ (off : ℚ) (po fs : List Nat),
      dib_offset dib = .ok off ∧
      py_int2dword (14 + ⌈fl (off / 4)⌉ * 4) false = .ok po ∧
      py_int2dword (14 + (dib.length : Int)) false = .ok fs ∧
      b = [66, 77] ++ fs ++ [0, 0, 0, 0] ++ po ++ dib := by
  simp only [dib_to_bmp] at h
  obtain ⟨off, hoff, h⟩ := except_bind_ok h
  obtain ⟨po, hpo, h⟩ := except_bind_ok h
  obtain ⟨fs, hfs, h⟩ := except_bind_ok h
  exact ⟨off, po, fs, hoff, hpo, hfs, (Except.ok.inj h).symm⟩

/-- C1 amended: whenever `dib_to_bmp` succeeds — on every valid DIB whose
computed size fields fit an unsigned 32-bit word — it has prepended exactly
14 bytes to the unmodified DIB payload, so `bmp_to_dib`, which strips
exactly 14 bytes, recovers the original input:
`bmp_to_dib (dib_to_bmp d) = d`. -/
theorem bmp_dib_roundtrip (d b : List Nat) (h : dib_to_bmp d = .ok b) :
    bmp_to_dib b = d ∧ b.length = d.length + 14 := by
  obtain ⟨off, po, fs, hoff, hpo, hfs, rfl⟩ := dib_to_bmp_ok_shape h
  have hpo4 := py_int2dword_length hpo
  have hfs4 := py_int2dword_length hfs
  constructor
  · show ([66, 77] ++ fs ++ [0, 0, 0, 0] ++ po ++ d).drop 14 = d
    have hassoc : [66, 77] ++ fs ++ [0, 0, 0, 0] ++ po ++ d =
        ([66, 77] ++ fs ++ [0, 0, 0, 0] ++ po) ++ d := by
      simp [List.append_assoc]
    have hlen : ([66, 77] ++ fs ++ [0, 0, 0, 0] ++ po).length = 14 := by
      simp [hpo4, hfs4]
    rw [hassoc, List.drop_left' hlen]
  · simp [hpo4, hfs4]
    omega

/-- Witness for C1 at the 12-byte legacy DIB with one bit per pixel. -/
theorem bmp_dib_roundtrip_witness :
    bmp_to_dib ([66, 77, 26, 0, 0, 0, 0, 0, 0, 0, 34, 0, 0, 0] ++
        [12, 0, 0, 0, 0, 0, 0, 0, 0, 0, 1, 0]) =
      [12, 0, 0, 0, 0, 0, 0, 0, 0, 0, 1, 0] ∧
    ([66, 77, 26, 0, 0, 0, 0, 0, 0, 0, 34, 0, 0, 0] ++
        [12, 0, 0, 0, 0, 0, 0, 0, 0, 0, 1, 0]).length =
      [12, 0, 0, 0, 0, 0, 0, 0, 0, 0, 1, 0].length + 14 :=
  bmp_dib_roundtrip _ _ (by with_unfolding_all rfl)

/-- Counterexample for C1 as stated: a 36-byte modern DIB with header size
0xFFFFFFFF — at least 40, and long enough for every modern-layout field —
makes the computed pixel offset `14 + 2 ^ 32` overflow the unsigned 32-bit
pack, so `dib_to_bmp` raises instead of producing output, and the claimed
roundtrip over all valid DIBs fails there. -/
theorem dib_to_bmp_overflow_counterexample :
    dword2py_int (pySlice ([255, 255, 255, 255, 0, 0, 0, 0, 0, 0, 0, 0, 0, 0,
        24, 0, 0, 0, 0, 0, 0, 0, 0, 0, 0, 0, 0, 0, 0, 0, 0, 0, 0, 0, 0, 0] :
        List Nat) 0 4) false = .ok 4294967295 ∧
    40 ≤ 4294967295 ∧
    ([255, 255, 255, 255, 0, 0, 0, 0, 0, 0, 0, 0, 0, 0,
        24, 0, 0, 0, 0, 0, 0, 0, 0, 0, 0, 0, 0, 0, 0, 0, 0, 0, 0, 0, 0, 0] :
        List Nat).length = 36 ∧
    dib_to_bmp [255, 255, 255, 255, 0, 0, 0, 0, 0, 0, 0, 0, 0, 0,
        24, 0, 0, 0, 0, 0, 0, 0, 0, 0, 0, 0, 0, 0, 0, 0, 0, 0, 0, 0, 0, 0] =
      .error .valueOutOfRange := by
  refine ⟨rfl, by omega, rfl, by with_unfolding_all rfl⟩

/-- C5 amended: `bmp_to_dib` returns the bytes from offset 14 onward
unconditionally; on an input of length at least 14 this strips exactly the
14-byte header, and no length check or error path exists. -/
theorem bmp_to_dib_strips (bmp : List Nat) :
    bmp.take 14 ++ bmp_to_dib bmp = bmp ∧
    (bmp_to_dib bmp).length = bmp.length - 14 := by
  refine ⟨?_, ?_⟩
  · simp [bmp_to_dib]
  · simp [bmp_to_dib]

/-- Counterexample for C5 as stated: on a 13-byte input `bmp_to_dib` returns
the empty byte string; it does not fail with an `InvalidLength` error (the
source has no error path at all). -/
theorem bmp_to_dib_no_length_check :
    bmp_to_dib [1, 1, 1, 1, 1, 1, 1, 1, 1, 1, 1, 1, 1] = [] := rfl

/-- C10: on any input of length at most 14, `bmp_to_dib` returns the empty
byte string without any error. -/
theorem bmp_to_dib_short_total (bmp : List Nat) (h : bmp.length ≤ 14) :
    bmp_to_dib bmp = [] :=
  List.drop_eq_nil_of_le h

/-- Witness for C10 at a 3-byte input. -/
theorem bmp_to_dib_short_total_witness : bmp_to_dib [9, 9, 9] = [] :=
  bmp_to_dib_short_total [9, 9, 9] (by decide)

/-- C2 amended: the pre-rounding offset computed by `dib_to_bmp` reads the
fields the claim names — bits per pixel as signed 16-bit little-endian at
offset 10 (legacy) or 14 (otherwise), colors used as unsigned 32-bit
little-endian at offset 32 — and adds the palette bytes: `colors * 3` in
exact integer arithmetic when `bpp > 8` in the modern branch, `0` when
`bpp > 8` in the legacy branch, and otherwise the binary64 sum
`fl (hs + fl (pow2f bpp * 3))`, which equals the claimed ideal
`hs + 2 ^ bpp * 3` whenever `0 ≤ bpp ≤ 8` (second conjunct); `math.pow`
underflows to `0` for `bpp < -1074`.  Decode failures of the fields
propagate. -/
theorem dib_offset_palette (dib : List Nat) (hs : Nat)
    (hhs : dword2py_int (pySlice dib 0 4) false = .ok hs) :
    (dib_offset dib =
      if hs = 12 then
        Except.map
          (fun bpp : Int =>
            if bpp ≤ 8 then fl ((hs : ℚ) + fl (pow2f bpp * 3))
            else (hs : ℚ) + 0)
          (signed_word2py_int (pySlice dib 10 12) false)
      else
        (signed_word2py_int (pySlice dib 14 16) false).bind fun bpp =>
          Except.map
            (fun colorsnum : Nat =>
              if bpp > 8 then (hs : ℚ) + (colorsnum : ℚ) * 3
              else fl ((hs : ℚ) + fl (pow2f bpp * 3)))
            (dword2py_int (pySlice dib 32 36) false)) ∧
    (hs < 4294967296 → ∀ bpp : Int, 0 ≤ bpp → bpp ≤ 8 →
      fl ((hs : ℚ) + fl (pow2f bpp * 3)) = (hs : ℚ) + 2 ^ bpp * 3) := by
  constructor
  · simp only [dib_offset, hhs, Except.bind]
    by_cases h12 : hs = 12
    · rw [if_pos h12, if_pos h12]
      cases hb : signed_word2py_int (pySlice dib 10 12) false with
      | error e => simp [Except.bind, Except.map]
      | ok bpp =>
          simp only [Except.bind, Except.map, Except.ok.injEq]
          rcases le_or_lt bpp 8 with hle | hgt
          · rw [if_neg (by omega), if_pos hle]
          · rw [if_pos hgt, if_neg (by omega)]
            ring
    · rw [if_neg h12, if_neg h12]
      cases hb : signed_word2py_int (pySlice dib 14 16) false with
      | error e => simp [Except.bind, Except.map]
      | ok bpp =>
          simp only [Except.bind]
          cases hc : dword2py_int (pySlice dib 32 36) false with
          | error e => simp [Except.bind, Except.map]
          | ok colorsnum =>
              simp only [Except.bind, Except.map, Except.ok.injEq]
  · intro h32 bpp h0 h8
    exact fl_palette_exact h32 h0 h8

/-- Witness for C2 amended at the 12-byte legacy DIB with one bit per
pixel: the float arithmetic is exact there and the offset is
`12 + 2 ^ 1 * 3 = 18`. -/
theorem dib_offset_palette_witness :
    dib_offset [12, 0, 0, 0, 0, 0, 0, 0, 0, 0, 1, 0] = .ok 18 ∧
    fl (((12 : Nat) : ℚ) + fl (pow2f 1 * 3)) = ((12 : Nat) : ℚ) +
      2 ^ (1 : Int) * 3 := by
  have h := dib_offset_palette [12, 0, 0, 0, 0, 0, 0, 0, 0, 0, 1, 0] 12 rfl
  constructor
  · rw [h.1]
    with_unfolding_all rfl
  · exact h.2 (by omega) 1 (by omega) (by omega)

/-- Counterexample for C2 as stated: at bits per pixel -1080 (the field is
decoded signed, so negative values are reachable), `math.pow(2, -1080)`
underflows to `0.0` and the computed offset is exactly the header size 12,
not the claimed `12 + 2 ^ (-1080) * 3`. -/
theorem dib_offset_pow_underflow_counterexample :
    dib_offset [12, 0, 0, 0, 0, 0, 0, 0, 0, 0, 200, 251] = .ok 12 ∧
    (12 : ℚ) ≠ 12 + 2 ^ (-1080 : Int) * 3 := by
  constructor
  · with_unfolding_all rfl
  · intro hcontra
    have h1 : (0 : ℚ) < 2 ^ (-1080 : Int) * 3 := by positivity
    linarith

/-- The pre-rounding offset is never negative: it is a header size plus a
nonnegative palette contribution, and `fl` preserves nonnegativity. -/
lemma dib_offset_nonneg {dib : List Nat} {off : ℚ}
    (h : dib_offset dib = .ok off) : 0 ≤ off := by
  simp only [dib_offset] at h
  obtain ⟨hs, hhs, h⟩ := except_bind_ok h
  have hpal : ∀ bpp : Int, (0 : ℚ) ≤ fl ((hs : ℚ) + fl (pow2f bpp * 3)) := by
    intro bpp
    have hp : (0 : ℚ) ≤ pow2f bpp := by
      unfold pow2f
      split
      · exact le_refl 0
      · positivity
    have hin : (0 : ℚ) ≤ fl (pow2f bpp * 3) :=
      fl_nonneg (mul_nonneg hp (by norm_num))
    exact fl_nonneg (add_nonneg (Nat.cast_nonneg hs) hin)
  by_cases h12 : hs = 12
  · rw [if_pos h12] at h
    obtain ⟨bpp, hbpp, h⟩ := except_bind_ok h
    have he := Except.ok.inj h
    rw [← he]
    split
    · exact Nat.cast_nonneg hs
    · exact hpal bpp
  · rw [if_neg h12] at h
    obtain ⟨bpp, hbpp, h⟩ := except_bind_ok h
    obtain ⟨colorsnum, hcol, h⟩ := except_bind_ok h
    have he := Except.ok.inj h
    rw [← he]
    split
    · positivity
    · exact hpal bpp

/-- Binding a success value just applies the continuation. -/
lemma except_ok_bind {α β : Type} (a : α) (f : α → Except BinErr β) :
    (Except.ok a).bind f = f a := rfl

/-- When the offset computation succeeds and both dword encodes are in
range, `dib_to_bmp` emits exactly the documented concatenation. -/
lemma dib_to_bmp_emit {dib : List Nat} {off : ℚ}
    (hoff : dib_offset dib = .ok off)
    (hpo : 14 + ⌈fl (off / 4)⌉ * 4 < 4294967296)
    (hfs : 14 + (dib.length : Int) < 4294967296) :
    ∃ fs po : List Nat,
      py_int2dword (14 + (dib.length : Int)) false = .ok fs ∧
      py_int2dword (14 + ⌈fl (off / 4)⌉ * 4) false = .ok po ∧
      dib_to_bmp dib = .ok ([66, 77] ++ fs ++ [0, 0, 0, 0] ++ po ++ dib) := by
  have h0 : 0 ≤ off := dib_offset_nonneg hoff
  have hfl0 : 0 ≤ fl (off / 4) := fl_nonneg (by positivity)
  have hceil0 : 0 ≤ ⌈fl (off / 4)⌉ := Int.ceil_nonneg hfl0
  have hpoc : (0 : Int) ≤ 14 + ⌈fl (off / 4)⌉ * 4 ∧
      14 + ⌈fl (off / 4)⌉ * 4 < 4294967296 := ⟨by omega, hpo⟩
  have hfsc : (0 : Int) ≤ 14 + (dib.length : Int) ∧
      14 + (dib.length : Int) < 4294967296 := ⟨by omega, hfs⟩
  cases hE1 : py_int2dword (14 + ⌈fl (off / 4)⌉ * 4) false with
  | error e =>
      rw [py_int2dword, if_pos hpoc] at hE1
      exact Except.noConfusion hE1
  | ok po =>
      cases hE2 : py_int2dword (14 + (dib.length : Int)) false with
      | error e =>
          rw [py_int2dword, if_pos hfsc] at hE2
          exact Except.noConfusion hE2
      | ok fs =>
          refine ⟨fs, po, rfl, rfl, ?_⟩
          unfold dib_to_bmp
          rw [hoff, except_ok_bind]
          rw [hE1, except_ok_bind]
          rw [hE2, except_ok_bind]

/-- C3 amended: `dib_to_bmp` takes the ceiling of the float quotient
`fl (off / 4)` and multiplies by 4, stores `14` plus that value as the
pixel offset, and emits exactly the magic `BM`, `14 + len(dib)` as a
little-endian dword, four zero bytes, the pixel offset as a little-endian
dword, and the unmodified input bytes.  Whenever the float division is
exact — the hypothesis `hexact`, which holds in particular whenever the
offset is an integer — the stored value is `14` plus the least multiple of
4 at least the offset, the claimed round-up of the header region. -/
theorem dib_to_bmp_layout (dib : List Nat) (off : ℚ)
    (hoff : dib_offset dib = .ok off)
    (hexact : fl (off / 4) = off / 4)
    (hpo : 14 + ⌈fl (off / 4)⌉ * 4 < 4294967296)
    (hfs : 14 + (dib.length : Int) < 4294967296) :
    ∃ fs po : List Nat,
      py_int2dword (14 + (dib.length : Int)) false = .ok fs ∧
      py_int2dword (14 + ⌈fl (off / 4)⌉ * 4) false = .ok po ∧
      dib_to_bmp dib = .ok ([66, 77] ++ fs ++ [0, 0, 0, 0] ++ po ++ dib) ∧
      off ≤ ((⌈fl (off / 4)⌉ * 4 : Int) : ℚ) ∧
      (4 : Int) ∣ ⌈fl (off / 4)⌉ * 4 ∧
      ∀ m : Int, (4 : Int) ∣ m → off ≤ (m : ℚ) → ⌈fl (off / 4)⌉ * 4 ≤ m := by
  obtain ⟨fs, po, h1, h2, h3⟩ := dib_to_bmp_emit hoff hpo hfs
  rw [hexact]
  rw [hexact] at h2 hpo
  refine ⟨fs, po, h1, h2, h3, ?_, ⟨⌈off / 4⌉, by ring⟩, ?_⟩
  · have hle : off / 4 ≤ (⌈off / 4⌉ : ℚ) := Int.le_ceil _
    push_cast
    linarith
  · intro m hdvd hm
    obtain ⟨k, rfl⟩ := hdvd
    have hk : off / 4 ≤ (k : ℚ) := by
      rw [div_le_iff₀ (by norm_num : (0 : ℚ) < 4)]
      push_cast at hm ⊢
      linarith
    have := Int.ceil_le.mpr hk
    omega

/-- Witness for C3 amended at the 12-byte legacy DIB with one bit per
pixel, whose offset 18 is divided by 4 exactly and rounds up to 20. -/
theorem dib_to_bmp_layout_witness :
    ∃ fs po : List Nat,
      py_int2dword (14 + (([12, 0, 0, 0, 0, 0, 0, 0, 0, 0, 1, 0] :
          List Nat).length : Int)) false = .ok fs ∧
      py_int2dword (14 + ⌈fl ((18 : ℚ) / 4)⌉ * 4) false = .ok po ∧
      dib_to_bmp [12, 0, 0, 0, 0, 0, 0, 0, 0, 0, 1, 0] =
        .ok ([66, 77] ++ fs ++ [0, 0, 0, 0] ++ po ++
          [12, 0, 0, 0, 0, 0, 0, 0, 0, 0, 1, 0]) ∧
      (18 : ℚ) ≤ ((⌈fl ((18 : ℚ) / 4)⌉ * 4 : Int) : ℚ) ∧
      (4 : Int) ∣ ⌈fl ((18 : ℚ) / 4)⌉ * 4 ∧
      ∀ m : Int, (4 : Int) ∣ m → (18 : ℚ) ≤ (m : ℚ) →
        ⌈fl ((18 : ℚ) / 4)⌉ * 4 ≤ m :=
  dib_to_bmp_layout [12, 0, 0, 0, 0, 0, 0, 0, 0, 0, 1, 0] 18
    (by with_unfolding_all rfl)
    (by with_unfolding_all rfl)
    (by
      have hc : (⌈fl ((18 : ℚ) / 4)⌉ : Int) = 5 := by with_unfolding_all rfl
      rw [hc]
      omega)
    (by decide)

/-- Counterexample for C3 as stated: for the legacy DIB with bits per pixel
-100, the double addition rounds the palette term `3 * 2 ^ (-100)` away
(it is far below half an ulp of 12), the program stores pixel offset 26,
yet `14` plus the exact round-up of `12 + 2 ^ (-100) * 3` to a multiple of
4 is 30. -/
theorem dib_to_bmp_float_rounding_counterexample :
    dib_to_bmp [12, 0, 0, 0, 0, 0, 0, 0, 0, 0, 156, 255] =
      .ok ([66, 77, 26, 0, 0, 0, 0, 0, 0, 0, 26, 0, 0, 0] ++
        [12, 0, 0, 0, 0, 0, 0, 0, 0, 0, 156, 255]) ∧
    14 + ⌈((12 + 2 ^ (-100 : Int) * 3 : ℚ)) / 4⌉ * 4 = (30 : Int) ∧
    (26 : Int) ≠ 30 := by
  refine ⟨by with_unfolding_all rfl, by with_unfolding_all rfl, by decide⟩

/-- A list of length 2 is a two-element list. -/
lemma list_len2 {l : List Nat} (h : l.length = 2) : ∃ a b, l = [a, b] := by
  rcases l with _ | ⟨a, l⟩
  · simp at h
  rcases l with _ | ⟨b, l⟩
  · simp at h
  rcases l with _ | ⟨c, l⟩
  · exact ⟨a, b, rfl⟩
  · simp only [List.length_cons] at h
    omega

/-- A list of length 4 is a four-element list. -/
lemma list_len4 {l : List Nat} (h : l.length = 4) :
    ∃ a b c d, l = [a, b, c, d] := by
  rcases l with _ | ⟨a, l⟩
  · simp at h
  rcases l with _ | ⟨b, l⟩
  · simp at h
  rcases l with _ | ⟨c, l⟩
  · simp at h
  rcases l with _ | ⟨d, l⟩
  · simp at h
  rcases l with _ | ⟨e, l⟩
  · exact ⟨a, b, c, d, rfl⟩
  · simp only [List.length_cons] at h
    omega

/-- The slice operator returns `min b len - a` elements. -/
lemma pySlice_length (l : List Nat) (a b : Nat) :
    (pySlice l a b).length = min b l.length - a := by
  simp [pySlice]

/-- In the emitted BMP container, bytes 2 to 6 are the file-size field and
bytes 10 to 14 are the pixel-offset field. -/
lemma bmp_field_slices {fs po : List Nat} (dib : List Nat)
    (hfs4 : fs.length = 4) (hpo4 : po.length = 4) :
    pySlice ([66, 77] ++ fs ++ [0, 0, 0, 0] ++ po ++ dib) 2 6 = fs ∧
    pySlice ([66, 77] ++ fs ++ [0, 0, 0, 0] ++ po ++ dib) 10 14 = po := by
  obtain ⟨a, b, c, d, rfl⟩ := list_len4 hfs4
  obtain ⟨p, q, r, s, rfl⟩ := list_len4 hpo4
  exact ⟨rfl, rfl⟩

/-- C6 amended: in every container emitted by `dib_to_bmp`, the stored
file-size field decodes to `14 + len(dib)`, and the stored pixel-offset
field decodes to `14 + ⌈fl (off / 4)⌉ * 4` where `off` is the header
region — the header size plus the palette bytes, computed in binary64 —
not `14` plus the rounded palette size alone; whenever the float
arithmetic is exact this is the header region rounded up to a 4-byte
boundary, as the rounding conjuncts of `dib_to_bmp_layout` show. -/
theorem bmp_header_invariants (dib b : List Nat) (off : ℚ)
    (hoff : dib_offset dib = .ok off) (h : dib_to_bmp dib = .ok b) :
    dword2py_int (pySlice b 2 6) false = .ok (14 + dib.length) ∧
    dword2py_int (pySlice b 10 14) false =
      .ok (14 + ⌈fl (off / 4)⌉ * 4).toNat := by
  obtain ⟨off2, po, fs, hoff2, hpo, hfs, rfl⟩ := dib_to_bmp_ok_shape h
  have hoffeq : off = off2 := Except.ok.inj (hoff.symm.trans hoff2)
  subst hoffeq
  obtain ⟨hsl1, hsl2⟩ :=
    bmp_field_slices dib (py_int2dword_length hfs) (py_int2dword_length hpo)
  constructor
  · rw [hsl1, dword2py_int_pack hfs]
    have ht : ((14 : Int) + (dib.length : Int)).toNat = 14 + dib.length := by
      omega
    rw [ht]
  · rw [hsl2, dword2py_int_pack hpo]

/-- Witness for C6 amended at the 12-byte legacy DIB with one bit per
pixel, whose emitted file size is 26 and pixel offset is 34. -/
theorem bmp_header_invariants_witness :
    dword2py_int (pySlice ([66, 77, 26, 0, 0, 0, 0, 0, 0, 0, 34, 0, 0, 0] ++
        [12, 0, 0, 0, 0, 0, 0, 0, 0, 0, 1, 0]) 2 6) false =
      .ok (14 + ([12, 0, 0, 0, 0, 0, 0, 0, 0, 0, 1, 0] : List Nat).length) ∧
    dword2py_int (pySlice ([66, 77, 26, 0, 0, 0, 0, 0, 0, 0, 34, 0, 0, 0] ++
        [12, 0, 0, 0, 0, 0, 0, 0, 0, 0, 1, 0]) 10 14) false =
      .ok (14 + ⌈fl ((18 : ℚ) / 4)⌉ * 4).toNat :=
  bmp_header_invariants _ _ 18 (by with_unfolding_all rfl)
    (by with_unfolding_all rfl)

/-- Counterexample for C6 as stated: for a modern 24-bit DIB with zero
colors used, the palette size is 0, so the claimed pixel offset would be
`14 + 0` rounded up, that is 14; the stored pixel-offset field is 54. -/
theorem bmp_pixel_offset_counterexample :
    dib_to_bmp [40, 0, 0, 0, 0, 0, 0, 0, 0, 0, 0, 0, 0, 0, 24, 0,
        0, 0, 0, 0, 0, 0, 0, 0, 0, 0, 0, 0, 0, 0, 0, 0, 0, 0, 0, 0,
        0, 0, 0, 0] =
      .ok ([66, 77, 54, 0, 0, 0, 0, 0, 0, 0, 54, 0, 0, 0] ++
        [40, 0, 0, 0, 0, 0, 0, 0, 0, 0, 0, 0, 0, 0, 24, 0,
          0, 0, 0, 0, 0, 0, 0, 0, 0, 0, 0, 0, 0, 0, 0, 0, 0, 0, 0, 0,
          0, 0, 0, 0]) ∧
    dword2py_int (pySlice ([66, 77, 54, 0, 0, 0, 0, 0, 0, 0, 54, 0, 0, 0] ++
        [40, 0, 0, 0, 0, 0, 0, 0, 0, 0, 0, 0, 0, 0, 24, 0,
          0, 0, 0, 0, 0, 0, 0, 0, 0, 0, 0, 0, 0, 0, 0, 0, 0, 0, 0, 0,
          0, 0, 0, 0]) 10 14) false = .ok 54 ∧
    (54 : Int) ≠ 14 + ⌈(0 : ℚ) / 4⌉ * 4 := by
  refine ⟨by with_unfolding_all rfl, by with_unfolding_all rfl, ?_⟩
  have hc : (14 + ⌈(0 : ℚ) / 4⌉ * 4 : Int) = 14 := by with_unfolding_all rfl
  rw [hc]
  omega

/-- C7 amended: for a modern header with header size 40 and 24 bits per
pixel at offset 14, the palette size is `colors_used * 3` — it is not
ignored for depths above 8 bits — and in the common case `colors_used = 0`
the header region is 40, already 4-aligned, and the emitted pixel offset is
54. -/
theorem dib_to_bmp_modern24 (dib : List Nat)
    (hhs : pySlice dib 0 4 = [40, 0, 0, 0])
    (hbpp : pySlice dib 14 16 = [24, 0])
    (hcol : pySlice dib 32 36 = [0, 0, 0, 0])
    (hfs : 14 + (dib.length : Int) < 4294967296) :
    dib_offset dib = .ok 40 ∧
    ∃ b, dib_to_bmp dib = .ok b ∧
      dword2py_int (pySlice b 10 14) false = .ok 54 := by
  have hoff : dib_offset dib = .ok 40 := by
    unfold dib_offset
    rw [hhs, hbpp, hcol]
    with_unfolding_all rfl
  have hpo : 14 + ⌈fl ((40 : ℚ) / 4)⌉ * 4 < 4294967296 := by
    have hc : (⌈fl ((40 : ℚ) / 4)⌉ : Int) = 10 := by with_unfolding_all rfl
    rw [hc]
    omega
  obtain ⟨fs, po, h1, h2, h3⟩ := dib_to_bmp_emit hoff hpo hfs
  refine ⟨hoff, _, h3, ?_⟩
  obtain ⟨hsl1, hsl2⟩ :=
    bmp_field_slices dib (py_int2dword_length h1) (py_int2dword_length h2)
  rw [hsl2, dword2py_int_pack h2]
  have ht : ((14 + ⌈fl ((40 : ℚ) / 4)⌉ * 4 : Int)).toNat = 54 := by
    with_unfolding_all rfl
  rw [ht]

/-- Witness for C7 amended at a 40-byte modern DIB with zero colors used. -/
theorem dib_to_bmp_modern24_witness :
    dib_offset [40, 0, 0, 0, 0, 0, 0, 0, 0, 0, 0, 0, 0, 0, 24, 0,
        0, 0, 0, 0, 0, 0, 0, 0, 0, 0, 0, 0, 0, 0, 0, 0, 0, 0, 0, 0,
        0, 0, 0, 1] = .ok 40 ∧
    ∃ b, dib_to_bmp [40, 0, 0, 0, 0, 0, 0, 0, 0, 0, 0, 0, 0, 0, 24, 0,
        0, 0, 0, 0, 0, 0, 0, 0, 0, 0, 0, 0, 0, 0, 0, 0, 0, 0, 0, 0,
        0, 0, 0, 1] = .ok b ∧
      dword2py_int (pySlice b 10 14) false = .ok 54 :=
  dib_to_bmp_modern24 _ rfl rfl rfl (by decide)

/-- Counterexample for C7 as stated: with header size 40 and 24 bits per
pixel but colors_used = 1, the computed offset is 43, rounded to 44, so the
stored pixel offset is 58, not 54: colors_used is not irrelevant. -/
theorem dib_to_bmp_modern24_counterexample :
    dib_to_bmp [40, 0, 0, 0, 0, 0, 0, 0, 0, 0, 0, 0, 0, 0, 24, 0,
        0, 0, 0, 0, 0, 0, 0, 0, 0, 0, 0, 0, 0, 0, 0, 0, 1, 0, 0, 0,
        0, 0, 0, 0] =
      .ok ([66, 77, 54, 0, 0, 0, 0, 0, 0, 0, 58, 0, 0, 0] ++
        [40, 0, 0, 0, 0, 0, 0, 0, 0, 0, 0, 0, 0, 0, 24, 0,
          0, 0, 0, 0, 0, 0, 0, 0, 0, 0, 0, 0, 0, 0, 0, 0, 1, 0, 0, 0,
          0, 0, 0, 0]) ∧
    dword2py_int (pySlice ([66, 77, 54, 0, 0, 0, 0, 0, 0, 0, 58, 0, 0, 0] ++
        [40, 0, 0, 0, 0, 0, 0, 0, 0, 0, 0, 0, 0, 0, 24, 0,
          0, 0, 0, 0, 0, 0, 0, 0, 0, 0, 0, 0, 0, 0, 0, 0, 1, 0, 0, 0,
          0, 0, 0, 0]) 10 14) false = .ok 58 ∧
    (58 : Nat) ≠ 54 :=
  ⟨by with_unfolding_all rfl, by with_unfolding_all rfl, by decide⟩

/-- A list whose length is not 4 never decodes as a dword. -/
lemma dword2py_int_len_ne {l : List Nat} (h : l.length ≠ 4) :
    dword2py_int l false = .error .invalidLength := by
  rcases l with _ | ⟨a, l⟩
  · rfl
  rcases l with _ | ⟨b, l⟩
  · rfl
  rcases l with _ | ⟨c, l⟩
  · rfl
  rcases l with _ | ⟨d, l⟩
  · rfl
  rcases l with _ | ⟨e, l⟩
  · exact absurd rfl h
  · rfl

/-- A list whose length is not 2 never decodes as a signed word. -/
lemma signed_word2py_int_len_ne {l : List Nat} (h : l.length ≠ 2) :
    signed_word2py_int l false = .error .invalidLength := by
  rcases l with _ | ⟨a, l⟩
  · rfl
  rcases l with _ | ⟨b, l⟩
  · rfl
  rcases l with _ | ⟨c, l⟩
  · exact absurd rfl h
  · rfl

/-- A two-element list decodes as a signed word to its two's-complement
value. -/
lemma signed_word2py_int_pair (a b : Nat) :
    signed_word2py_int [a, b] false =
      .ok (if a + 256 * b < 32768 then ((a + 256 * b : Nat) : Int)
           else ((a + 256 * b : Nat) : Int) - 65536) := rfl

/-- C4 amended: `dib_to_bmp` fails whenever the input is shorter than the
bytes the chosen branch reads: 4 bytes to read the header size at all, 12
bytes when the header size is 12, and 36 bytes for any other header size.
No header-size validation beyond the 12-versus-other branch exists (any
header size other than 12 is handled by the modern branch), these failures
come from the primitive decoders as length errors rather than from a
malformed-header check, and all reads go through clamping slices, never out
of bounds.  Shortness is sufficient for failure, not equivalent to it: a
long enough input can still fail with a range error when a computed size
field exceeds the unsigned 32-bit range. -/
theorem dib_to_bmp_short_input (dib : List Nat)
    (h : dib.length < 4 ∨
      ∃ hs, dword2py_int (pySlice dib 0 4) false = .ok hs ∧
        ((hs = 12 ∧ dib.length < 12) ∨ (hs ≠ 12 ∧ dib.length < 36))) :
    ∃ e, dib_to_bmp dib = .error e := by
  have hoff : dib_offset dib = .error .invalidLength := by
    rcases h with hlen | ⟨hs, hhs, hcase⟩
    · have hsl : (pySlice dib 0 4).length ≠ 4 := by
        rw [pySlice_length]
        omega
      unfold dib_offset
      rw [dword2py_int_len_ne hsl]
      rfl
    · rcases hcase with ⟨h12, hlen⟩ | ⟨h12, hlen⟩
      · have hsl : (pySlice dib 10 12).length ≠ 2 := by
          rw [pySlice_length]
          omega
        unfold dib_offset
        rw [hhs, except_ok_bind, if_pos h12, signed_word2py_int_len_ne hsl]
        rfl
      · unfold dib_offset
        rw [hhs, except_ok_bind, if_neg h12]
        rcases lt_or_le dib.length 16 with h16 | h16
        · have hsl : (pySlice dib 14 16).length ≠ 2 := by
            rw [pySlice_length]
            omega
          rw [signed_word2py_int_len_ne hsl]
          rfl
        · have hsl2 : (pySlice dib 14 16).length = 2 := by
            rw [pySlice_length]
            omega
          obtain ⟨a, b, hab⟩ := list_len2 hsl2
          rw [hab, signed_word2py_int_pair, except_ok_bind]
          have hsl4 : (pySlice dib 32 36).length ≠ 4 := by
            rw [pySlice_length]
            omega
          rw [dword2py_int_len_ne hsl4]
          rfl
  refine ⟨.invalidLength, ?_⟩
  unfold dib_to_bmp
  rw [hoff]
  rfl

/-- Witness for C4 amended at the 4-byte input whose header size reads 12
but whose buffer ends before the bits-per-pixel field. -/
theorem dib_to_bmp_short_input_witness :
    ∃ e, dib_to_bmp [12, 0, 0, 0] = .error e :=
  dib_to_bmp_short_input [12, 0, 0, 0]
    (Or.inr ⟨12, rfl, Or.inl ⟨rfl, by decide⟩⟩)

/-- Counterexample for C4 as stated: header size 20 is neither 12 nor at
least 40, yet `dib_to_bmp` succeeds on a 40-byte buffer, because the source
performs no header-size validation: every header size other than 12 takes
the modern branch. -/
theorem dib_to_bmp_no_header_validation :
    dib_to_bmp [20, 0, 0, 0, 0, 0, 0, 0, 0, 0, 0, 0, 0, 0, 24, 0,
        0, 0, 0, 0, 0, 0, 0, 0, 0, 0, 0, 0, 0, 0, 0, 0, 0, 0, 0, 0,
        0, 0, 0, 0] =
      .ok ([66, 77, 54, 0, 0, 0, 0, 0, 0, 0, 34, 0, 0, 0] ++
        [20, 0, 0, 0, 0, 0, 0, 0, 0, 0, 0, 0, 0, 0, 24, 0,
          0, 0, 0, 0, 0, 0, 0, 0, 0, 0, 0, 0, 0, 0, 0, 0, 0, 0, 0, 0,
          0, 0, 0, 0]) := by with_unfolding_all rfl
